import Mathlib

/-!
# A verification development for the `json-parser-rs` validator

This file gives a shallow embedding of `src/main.rs` of the repository:
a two stage JSON syntax validator consisting of a line-buffered lexer
(`Lexer` in the source) and a recursive-descent recognizer
(`SyntaxAnalyser` in the source), together with theorems settling the
specification claims about it.

Modelling conventions:
* machine strings become `List Char`; the `BufRead` stream becomes the
  list of lines it would yield (`read_line` keeps the terminating
  newline and yields the empty string at end of input);
* `char::is_numeric` / `char::is_alphabetic` are embedded as
  `Char.isDigit` / `Char.isAlpha` (they agree on the ASCII inputs all
  claims are about);
* the recognizer's token cursor (`next_token` plus the index into the
  token vector) is the list of not-yet-consumed token kinds, threaded
  explicitly; a token's `original_text` field influences no parsing
  decision (the keyword table is consulted on the raw line slice before
  the token is built), so tokens are embedded by their `TokenType`;
* the source's string-scanning loop genuinely diverges on an
  unterminated string at end of input, and the outer scan loop is
  bounded by input size, so both take explicit fuel.
-/

/-- `TokenType` from the source (`enum TokenType`). -/
inductive TokenType where
  | LeftBrace
  | RightBrace
  | String
  | Number
  | True
  | False
  | Null
  | Colon
  | Comma
  | LeftSquareBracket
  | RightSquareBracket
  | Other
deriving DecidableEq, Repr

/-- `SyntaxAnalyser::match_token`: consume the lookahead iff it has the
requested kind.  The unconsumed-token list plays the role of the
`next_token` slot followed by the rest of the lexer's token vector. -/
def match_token (t : TokenType) : List TokenType → Bool × List TokenType
  | [] => (false, [])
  | x :: xs => if x = t then (true, xs) else (false, x :: xs)

theorem match_token_le {t : TokenType} {ts r : List TokenType} {b : Bool}
    (h : match_token t ts = (b, r)) : r.length ≤ ts.length := by
  cases ts with
  | nil => simp [match_token] at h; simp [h]
  | cons x xs =>
    simp only [match_token] at h
    split at h <;> simp_all

theorem match_token_true_lt {t : TokenType} {ts r : List TokenType}
    (h : match_token t ts = (true, r)) : r.length < ts.length := by
  cases ts with
  | nil => simp [match_token] at h
  | cons x xs =>
    simp only [match_token] at h
    split at h <;> simp_all

theorem match_token_false_eq {t : TokenType} {ts r : List TokenType}
    (h : match_token t ts = (false, r)) : r = ts := by
  cases ts with
  | nil => simp [match_token] at h; simp [h]
  | cons x xs =>
    simp only [match_token] at h
    split at h <;> simp_all

/-- Helper for the lexicographic termination argument of the mutually
recursive grammar procedures. -/
theorem lex_of_le_of_lt {a c b d : Nat} (h1 : a ≤ c) (h2 : b < d) :
    Prod.Lex (· < ·) (· < ·) (a, b) (c, d) := by
  rcases Nat.lt_or_eq_of_le h1 with h | h
  · exact Prod.Lex.left _ _ h
  · subst h; exact Prod.Lex.right _ h2

mutual

/-- `SyntaxAnalyser::object`.  Returns the boolean result together with
the remaining unconsumed tokens (the mutated cursor), bounded in length
so that the mutual recursion is well founded. -/
def object (ts : List TokenType) :
    Bool × {r : List TokenType // r.length ≤ ts.length} :=
  match h1 : match_token .LeftBrace ts with
  | (false, r) => (false, ⟨r, match_token_le h1⟩)
  | (true, ts1) =>
    match objectLoop ts1 with
    | (false, ⟨r, hr⟩) => (false, ⟨r, le_trans hr (match_token_le h1)⟩)
    | (true, ⟨ts2, h2⟩) =>
      match h3 : match_token .RightBrace ts2 with
      | (false, r) =>
          (false, ⟨r, le_trans (match_token_le h3) (le_trans h2 (match_token_le h1))⟩)
      | (true, r) =>
          (true, ⟨r, le_trans (match_token_le h3) (le_trans h2 (match_token_le h1))⟩)
termination_by (ts.length, 0)
decreasing_by
  · exact Prod.Lex.left _ _ (match_token_true_lt h1)

/-- The body of the `loop` inside `SyntaxAnalyser::object`: an optional
`String ':' value` member, then a comma decides whether to iterate.
`false` propagates the early `return false` of the source. -/
def objectLoop (ts : List TokenType) :
    Bool × {r : List TokenType // r.length ≤ ts.length} :=
  match h1 : match_token .String ts with
  | (true, ts1) =>
    match h2 : match_token .Colon ts1 with
    | (false, r) => (false, ⟨r, le_trans (match_token_le h2) (match_token_le h1)⟩)
    | (true, ts2) =>
      match value ts2 with
      | (false, ⟨r, hr⟩) =>
          (false, ⟨r, le_trans hr (le_trans (match_token_le h2) (match_token_le h1))⟩)
      | (true, ⟨ts3, h3⟩) =>
        match h4 : match_token .Comma ts3 with
        | (true, ts4) =>
          match objectLoop ts4 with
          | (b, ⟨r, hr⟩) => (b, ⟨r, by
              have := match_token_le h4
              have := match_token_le h2
              have := match_token_le h1
              omega⟩)
        | (false, r) => (true, ⟨r, by
            have := match_token_le h4
            have := match_token_le h2
            have := match_token_le h1
            omega⟩)
  | (false, ts1) =>
    match h4 : match_token .Comma ts1 with
    | (true, ts4) =>
      match objectLoop ts4 with
      | (b, ⟨r, hr⟩) => (b, ⟨r, by
          have := match_token_le h4
          have := match_token_le h1
          omega⟩)
    | (false, r) => (true, ⟨r, by
        have := match_token_le h4
        have := match_token_le h1
        omega⟩)
termination_by (ts.length, 1)
decreasing_by
  · apply Prod.Lex.left
    have := match_token_true_lt h2
    have := match_token_true_lt h1
    omega
  · apply Prod.Lex.left
    have := match_token_true_lt h4
    have := match_token_le h2
    have := match_token_true_lt h1
    omega
  · apply Prod.Lex.left
    have := match_token_true_lt h4
    have := match_token_le h1
    omega

/-- `SyntaxAnalyser::value`: the fixed-order alternative chain.  Note
that a failing `object` / `array` alternative leaves the tokens it
consumed consumed, exactly as in the source. -/
def value (ts : List TokenType) :
    Bool × {r : List TokenType // r.length ≤ ts.length} :=
  match h1 : match_token .String ts with
  | (true, r) => (true, ⟨r, match_token_le h1⟩)
  | (false, ts1) =>
    match h2 : match_token .Number ts1 with
    | (true, r) => (true, ⟨r, le_trans (match_token_le h2) (match_token_le h1)⟩)
    | (false, ts2) =>
      match h3 : match_token .True ts2 with
      | (true, r) => (true, ⟨r, le_trans (match_token_le h3)
          (le_trans (match_token_le h2) (match_token_le h1))⟩)
      | (false, ts3) =>
        match h4 : match_token .False ts3 with
        | (true, r) => (true, ⟨r, le_trans (match_token_le h4)
            (le_trans (match_token_le h3)
              (le_trans (match_token_le h2) (match_token_le h1)))⟩)
        | (false, ts4) =>
          match h5 : match_token .Null ts4 with
          | (true, r) => (true, ⟨r, le_trans (match_token_le h5)
              (le_trans (match_token_le h4) (le_trans (match_token_le h3)
                (le_trans (match_token_le h2) (match_token_le h1))))⟩)
          | (false, ts5) =>
            match object ts5 with
            | (true, ⟨r, hr⟩) => (true, ⟨r, by
                have := match_token_le h5
                have := match_token_le h4
                have := match_token_le h3
                have := match_token_le h2
                have := match_token_le h1
                omega⟩)
            | (false, ⟨ts6, h6⟩) =>
              match array ts6 with
              | (b, ⟨r, hr⟩) => (b, ⟨r, by
                  have := match_token_le h5
                  have := match_token_le h4
                  have := match_token_le h3
                  have := match_token_le h2
                  have := match_token_le h1
                  omega⟩)
termination_by (ts.length, 2)
decreasing_by
  · -- `value` calls `object` on a list no longer than its own input
    refine lex_of_le_of_lt ?_ (by omega)
    have := match_token_le h5
    have := match_token_le h4
    have := match_token_le h3
    have := match_token_le h2
    have := match_token_le h1
    omega
  · -- likewise for `array`
    refine lex_of_le_of_lt ?_ (by omega)
    have := match_token_le h5
    have := match_token_le h4
    have := match_token_le h3
    have := match_token_le h2
    have := match_token_le h1
    omega

/-- `SyntaxAnalyser::array`. -/
def array (ts : List TokenType) :
    Bool × {r : List TokenType // r.length ≤ ts.length} :=
  match h1 : match_token .LeftSquareBracket ts with
  | (false, r) => (false, ⟨r, match_token_le h1⟩)
  | (true, ts1) =>
    match value ts1 with
    | (false, ⟨ts2, h2⟩) =>
      -- `value() && match_token(Comma)` short-circuits: no comma attempt
      match h9 : match_token .RightSquareBracket ts2 with
      | (false, r) =>
          (false, ⟨r, le_trans (match_token_le h9) (le_trans h2 (match_token_le h1))⟩)
      | (true, r) =>
          (true, ⟨r, le_trans (match_token_le h9) (le_trans h2 (match_token_le h1))⟩)
    | (true, ⟨ts2, h2⟩) =>
      match h3 : match_token .Comma ts2 with
      | (false, ts3) =>
        match h9 : match_token .RightSquareBracket ts3 with
        | (false, r) => (false, ⟨r, by
            have := match_token_le h9
            have := match_token_le h3
            have := match_token_le h1
            omega⟩)
        | (true, r) => (true, ⟨r, by
            have := match_token_le h9
            have := match_token_le h3
            have := match_token_le h1
            omega⟩)
      | (true, ts3) =>
        match arrayLoop ts3 with
        | (false, ⟨r, hr⟩) => (false, ⟨r, by
            have := match_token_le h3
            have := match_token_le h1
            omega⟩)
        | (true, ⟨ts4, h4⟩) =>
          match h9 : match_token .RightSquareBracket ts4 with
          | (false, r) => (false, ⟨r, by
              have := match_token_le h9
              have := match_token_le h3
              have := match_token_le h1
              omega⟩)
          | (true, r) => (true, ⟨r, by
              have := match_token_le h9
              have := match_token_le h3
              have := match_token_le h1
              omega⟩)
termination_by (ts.length, 0)
decreasing_by
  · exact Prod.Lex.left _ _ (match_token_true_lt h1)
  · apply Prod.Lex.left
    have := match_token_true_lt h3
    have := match_token_true_lt h1
    omega

/-- The body of the `loop` inside `SyntaxAnalyser::array`: a mandatory
value, then a comma decides whether to iterate. -/
def arrayLoop (ts : List TokenType) :
    Bool × {r : List TokenType // r.length ≤ ts.length} :=
  match value ts with
  | (false, ⟨r, hr⟩) => (false, ⟨r, hr⟩)
  | (true, ⟨ts1, h1⟩) =>
    match h2 : match_token .Comma ts1 with
    | (true, ts2) =>
      match arrayLoop ts2 with
      | (b, ⟨r, hr⟩) => (b, ⟨r, by
          have := match_token_le h2
          omega⟩)
    | (false, r) => (true, ⟨r, le_trans (match_token_le h2) h1⟩)
termination_by (ts.length, 3)
decreasing_by
  · exact Prod.Lex.right _ (by omega)
  · apply Prod.Lex.left
    have := match_token_true_lt h2
    omega

end

/-- The grammar walk of `SyntaxAnalyser::parse` on an already-scanned
token sequence: prime the lookahead and run `object`.  The remaining
tokens are discarded without any leftover check, as in the source. -/
def parseTokens (ts : List TokenType) : Bool :=
  (object ts).1

/-! ## The lexer

The stream owned by the lexer is embedded as the list of lines that
`BufRead::read_line` would deliver: each line keeps its terminating
newline character, and the final line may lack one; end of input is an
empty read.  `current_line` is never `None` in the source (it is set to
`Some` in `Lexer::new` and in every branch of `next_character`), so
the state stores the line directly and the source's dead `None`
branches are dropped.  `current_line_number` is write-only in the
source and is omitted. -/

structure LexState where
  /-- lines not yet read from the `BufRead` stream -/
  rest : List (List Char)
  /-- `current_line` -/
  line : List Char
  /-- `current_char` -/
  curChar : Option Char
  /-- `current_offset` -/
  offset : Nat
  /-- `start` -/
  start : Nat
  /-- accumulated `tokens`, by kind (`original_text` feeds no parsing
  decision and is dropped) -/
  tokens : List TokenType
deriving Repr

/-- One `read_line` call: the next line, or the empty string at end of
input. -/
def readLine : List (List Char) → List Char × List (List Char)
  | [] => ([], [])
  | l :: ls => (l, ls)

/-- `Lexer::new`: reads the first line eagerly; `current_char` starts
out as `None`. -/
def initLexer (lines : List (List Char)) : LexState :=
  { rest := (readLine lines).2
    line := (readLine lines).1
    curChar := none
    offset := 0
    start := 0
    tokens := [] }

/-- `Lexer::next_character`: past the end of the current line, read the
next line and present a synthetic newline; otherwise consume the
character under the offset. -/
def nextCharacter (s : LexState) : LexState :=
  if s.offset ≥ s.line.length then
    { s with
      rest := (readLine s.rest).2
      line := (readLine s.rest).1
      curChar := some '\n'
      offset := 0 }
  else
    { s with curChar := s.line.get? s.offset, offset := s.offset + 1 }

/-- `Lexer::peek`: the character under the offset, or a synthetic
newline at the end of the current line. -/
def peek (s : LexState) : Option Char :=
  if s.offset ≥ s.line.length then some '\n' else s.line.get? s.offset

/-- `Lexer::add_token` (the token's text plays no role downstream). -/
def add_token (s : LexState) (t : TokenType) : LexState :=
  { s with tokens := s.tokens ++ [t] }

/-- `Lexer::next_num`: advance while the peeked character is a digit.
The loop guard `while let Some(_) = self.current_char` is kept.  As
with every other loop of the source, the loop is given explicit fuel;
any fuel beyond the digit-run length gives the source behavior. -/
def next_num (fuel : Nat) (s : LexState) : LexState :=
  match fuel with
  | 0 => s
  | fuel + 1 =>
    match s.curChar with
    | none => s
    | some _ =>
      match peek s with
      | none => next_num fuel (nextCharacter s)
      | some x => if !x.isDigit then s else next_num fuel (nextCharacter s)

/-- The keyword table built in `Lexer::new`. -/
def keywords (w : List Char) : Option TokenType :=
  if w = String.toList "true" then some .True
  else if w = String.toList "false" then some .False
  else if w = String.toList "null" then some .Null
  else none

/-- The scanning loop of `Lexer::keyword`: advance while the peeked
character is alphabetic. -/
def keywordRun (fuel : Nat) (s : LexState) : LexState :=
  match fuel with
  | 0 => s
  | fuel + 1 =>
    match s.curChar with
    | none => s
    | some _ =>
      match peek s with
      | none => keywordRun fuel (nextCharacter s)
      | some x => if !x.isAlpha then s else keywordRun fuel (nextCharacter s)

/-- `Lexer::keyword`: scan the alphabetic run, then look the consumed
slice `line[start..current_offset]` up in the keyword table. -/
def keyword (fuel : Nat) (s : LexState) : LexState :=
  let s1 := keywordRun fuel s
  match keywords ((s1.line.drop s1.start).take (s1.offset - s1.start)) with
  | some t => add_token s1 t
  | none => add_token s1 .Other

/-- `Lexer::number`: a digit run; on a following dot, the dot and the
character after it are consumed unconditionally, and the digit run
continues only if that character was itself a digit. -/
def number (fuel : Nat) (s : LexState) : LexState :=
  let s1 := next_num fuel s
  let s2 :=
    match peek s1 with
    | some dot =>
      if dot = '.' then
        let s3 := nextCharacter (nextCharacter s1)
        match s3.curChar with
        | some n => if n.isDigit then next_num fuel s3 else s3
        | none => s3
      else s1
    | none => s1
  add_token s2 .Number

/-- The string-scanning loop inside `Lexer::scan_token`'s `'"'` arm:
consume until the next quote.  The source loop diverges on an
unterminated string at end of input, hence the fuel. -/
def stringRun (fuel : Nat) (s : LexState) : LexState :=
  match fuel with
  | 0 => s
  | fuel + 1 =>
    match s.curChar with
    | none => s
    | some ch => if ch = '"' then s else stringRun fuel (nextCharacter s)

/-- `Lexer::scan_token`.  The `None` arm of the source is a crash that
is unreachable because `next_character` always sets the character. -/
def scan_token (fuel : Nat) (s : LexState) : LexState :=
  let s1 := nextCharacter s
  match s1.curChar with
  | none => s1
  | some c =>
    if c = '{' then add_token s1 .LeftBrace
    else if c = '}' then add_token s1 .RightBrace
    else if c = ':' then add_token s1 .Colon
    else if c = ',' then add_token s1 .Comma
    else if c = '[' then add_token s1 .LeftSquareBracket
    else if c = ']' then add_token s1 .RightSquareBracket
    else if c = '"' then add_token (stringRun fuel (nextCharacter s1)) .String
    else if c = '\n' ∨ c = ' ' then s1
    else if c.isDigit then number fuel s1
    else if c.isAlpha then keyword fuel s1
    else add_token s1 .Other

/-- `Lexer::at_end`: the current line is the empty read that signals
end of input. -/
def at_end (s : LexState) : Bool := s.line.isEmpty

/-- `Lexer::scan_tokens`: set `start` to the current offset and scan,
until the end of input.  The loop is bounded by the input size, not
structurally, hence the fuel. -/
def scan_tokens (fuel : Nat) (s : LexState) : LexState :=
  match fuel with
  | 0 => s
  | fuel + 1 =>
    if at_end s then s
    else scan_tokens fuel (scan_token fuel { s with start := s.offset })

/-- Cut a character stream into the lines a `BufRead` delivers: each
line keeps its newline, the last may lack one, and no line is empty. -/
def splitLines : List Char → List (List Char)
  | [] => []
  | c :: cs =>
    if c = '\n' then ['\n'] :: splitLines cs
    else
      match splitLines cs with
      | [] => [[c]]
      | l :: ls => (c :: l) :: ls

/-- Full tokenization of an input stream (the lexer half of
`SyntaxAnalyser::parse`). -/
def tokenize (fuel : Nat) (input : List Char) : List TokenType :=
  (scan_tokens fuel (initLexer (splitLines input))).tokens

/-- `SyntaxAnalyser::parse`: scan every token, prime the lookahead, and
run the `object` start symbol.  Leftover tokens are not examined. -/
def parse (fuel : Nat) (input : List Char) : Bool :=
  parseTokens (tokenize fuel input)

/-! ## The underlying stream with possible read failures

`Lexer::new` and `Lexer::next_character` call
`read_line(..).expect(..)`: a failed read makes the whole process
abort.  To settle the claim about that failure mode, the stream is
re-modelled as the list of read outcomes the `BufRead` delivers, an
`ioError` outcome standing for a failed read, and the lexer pipeline is
repeated over it with the abort propagated explicitly.  The validator
as written has exactly two terminal behaviors: a boolean handed to the
caller, or the abort. -/

inductive ReadEvent where
  | line (l : List Char)
  | ioError
deriving DecidableEq, Repr

/-- What `main` can do with an input stream: finish with a boolean, or
abort the process inside `.expect`. -/
inductive VOutcome where
  | result (b : Bool)
  | abort
deriving DecidableEq, Repr

structure LexStateF where
  rest : List ReadEvent
  line : List Char
  curChar : Option Char
  offset : Nat
  start : Nat
  tokens : List TokenType
deriving Repr

/-- One `read_line` call over the fallible stream; `Except.error`
models the `.expect` abort. -/
def readLineF : List ReadEvent → Except Unit (List Char × List ReadEvent)
  | [] => .ok ([], [])
  | .line l :: r => .ok ((l, r))
  | .ioError :: _ => .error ()

/-- `Lexer::new` over the fallible stream. -/
def initLexerF (stream : List ReadEvent) : Except Unit LexStateF := do
  let (l, r) ← readLineF stream
  pure { rest := r, line := l, curChar := none, offset := 0, start := 0, tokens := [] }

/-- `Lexer::next_character` over the fallible stream. -/
def nextCharacterF (s : LexStateF) : Except Unit LexStateF :=
  if s.offset ≥ s.line.length then do
    let (l, r) ← readLineF s.rest
    pure { s with rest := r, line := l, curChar := some '\n', offset := 0 }
  else
    pure { s with curChar := s.line.get? s.offset, offset := s.offset + 1 }

def peekF (s : LexStateF) : Option Char :=
  if s.offset ≥ s.line.length then some '\n' else s.line.get? s.offset

def add_tokenF (s : LexStateF) (t : TokenType) : LexStateF :=
  { s with tokens := s.tokens ++ [t] }

def next_numF (fuel : Nat) (s : LexStateF) : Except Unit LexStateF :=
  match fuel with
  | 0 => pure s
  | fuel + 1 =>
    match s.curChar with
    | none => pure s
    | some _ =>
      match peekF s with
      | none => nextCharacterF s >>= next_numF fuel
      | some x => if !x.isDigit then pure s else nextCharacterF s >>= next_numF fuel

def keywordRunF (fuel : Nat) (s : LexStateF) : Except Unit LexStateF :=
  match fuel with
  | 0 => pure s
  | fuel + 1 =>
    match s.curChar with
    | none => pure s
    | some _ =>
      match peekF s with
      | none => nextCharacterF s >>= keywordRunF fuel
      | some x => if !x.isAlpha then pure s else nextCharacterF s >>= keywordRunF fuel

def keywordF (fuel : Nat) (s : LexStateF) : Except Unit LexStateF := do
  let s1 ← keywordRunF fuel s
  match keywords ((s1.line.drop s1.start).take (s1.offset - s1.start)) with
  | some t => pure (add_tokenF s1 t)
  | none => pure (add_tokenF s1 .Other)

def numberF (fuel : Nat) (s : LexStateF) : Except Unit LexStateF := do
  let s1 ← next_numF fuel s
  let s2 ←
    match peekF s1 with
    | some dot =>
      if dot = '.' then do
        let s3 ← nextCharacterF s1 >>= nextCharacterF
        match s3.curChar with
        | some n => if n.isDigit then next_numF fuel s3 else pure s3
        | none => pure s3
      else pure s1
    | none => pure s1
  pure (add_tokenF s2 .Number)

def stringRunF (fuel : Nat) (s : LexStateF) : Except Unit LexStateF :=
  match fuel with
  | 0 => pure s
  | fuel + 1 =>
    match s.curChar with
    | none => pure s
    | some ch => if ch = '"' then pure s else nextCharacterF s >>= stringRunF fuel

def scan_tokenF (fuel : Nat) (s : LexStateF) : Except Unit LexStateF := do
  let s1 ← nextCharacterF s
  match s1.curChar with
  | none => pure s1
  | some c =>
    if c = '{' then pure (add_tokenF s1 .LeftBrace)
    else if c = '}' then pure (add_tokenF s1 .RightBrace)
    else if c = ':' then pure (add_tokenF s1 .Colon)
    else if c = ',' then pure (add_tokenF s1 .Comma)
    else if c = '[' then pure (add_tokenF s1 .LeftSquareBracket)
    else if c = ']' then pure (add_tokenF s1 .RightSquareBracket)
    else if c = '"' then do
      let s2 ← nextCharacterF s1 >>= stringRunF fuel
      pure (add_tokenF s2 .String)
    else if c = '\n' ∨ c = ' ' then pure s1
    else if c.isDigit then numberF fuel s1
    else if c.isAlpha then keywordF fuel s1
    else pure (add_tokenF s1 .Other)

def at_endF (s : LexStateF) : Bool := s.line.isEmpty

def scan_tokensF (fuel : Nat) (s : LexStateF) : Except Unit LexStateF :=
  match fuel with
  | 0 => pure s
  | fuel + 1 =>
    if at_endF s then pure s
    else scan_tokenF fuel { s with start := s.offset } >>= scan_tokensF fuel

/-- The whole `main` pipeline over a fallible stream: build the lexer,
scan, parse, and exit with the boolean — unless some `.expect` aborted
first. -/
def runValidator (fuel : Nat) (stream : List ReadEvent) : VOutcome :=
  match initLexerF stream >>= scan_tokensF fuel with
  | .error _ => .abort
  | .ok s => .result (parseTokens s.tokens)

/-! ## Generic facts about the recognizer -/

/-- `parse` rejects whenever the scanned token sequence does not start
with a left brace: `object` fails on its very first `match_token`. -/
theorem parseTokens_false_of_head_ne_leftBrace (ts : List TokenType)
    (h : ts.head? ≠ some TokenType.LeftBrace) : parseTokens ts = false := by
  have hmt : match_token .LeftBrace ts = (false, ts) := by
    cases ts with
    | nil => simp [match_token]
    | cons x xs =>
      have hx : ¬ x = TokenType.LeftBrace := by
        intro he; exact h (by simp [he])
      simp [match_token, hx]
  unfold parseTokens object
  split
  · rfl
  · rename_i ts1 h1
    rw [hmt] at h1
    simp at h1

/-! ## Claim theorems -/

/-- C1: the spec demands that validation succeed only when the entire
token sequence is consumed, rejecting `{"a":1} garbage`.  The code has
no leftover-token check: on that very input the scan leaves a trailing
`Other` token after the root object, and `parse` still returns `true`.
This theorem evaluates the code at the failing input. -/
theorem claim_C1_no_leftover_token_check :
    tokenize 100 (String.toList "\x7b\"a\":1\x7d garbage")
      = [.LeftBrace, .String, .Colon, .Number, .RightBrace, .Other]
    ∧ parse 100 (String.toList "\x7b\"a\":1\x7d garbage") = true := by
  constructor
  · decide
  · have h : tokenize 100 (String.toList "\x7b\"a\":1\x7d garbage")
        = [.LeftBrace, .String, .Colon, .Number, .RightBrace, .Other] := by decide
    unfold parse
    rw [h]
    simp [parseTokens, object, objectLoop, value, array, arrayLoop, match_token]

/-- C2: the spec demands that a trailing comma be rejected, in
particular on `{"a":1,}`.  In the code the member inside `object`'s
loop is optional on every iteration (the `String` match is merely an
`if`), so a comma directly followed by `}` is accepted and `parse`
returns `true` on `{"a":1,}`.  This theorem evaluates the code at the
failing input. -/
theorem claim_C2_trailing_comma_accepted :
    tokenize 100 (String.toList "\x7b\"a\":1,\x7d")
      = [.LeftBrace, .String, .Colon, .Number, .Comma, .RightBrace]
    ∧ parse 100 (String.toList "\x7b\"a\":1,\x7d") = true := by
  constructor
  · decide
  · have h : tokenize 100 (String.toList "\x7b\"a\":1,\x7d")
        = [.LeftBrace, .String, .Colon, .Number, .Comma, .RightBrace] := by decide
    unfold parse
    rw [h]
    simp [parseTokens, object, objectLoop, value, array, arrayLoop, match_token]

/-- C3: failure of a grammar rule is not atomic with respect to the
token cursor: inside `value`, a failing `object` alternative does not
restore the tokens it consumed before `array` is tried.  Consequently
the mismatched-bracket input `{"a":[{]}` — whose token sequence is
`{ String : [ { ] }` — is accepted: the inner `object` consumes the
`{` and fails, after which `array`'s element position is deemed empty
and the `]` closes the array. -/
theorem claim_C3_rule_failure_not_atomic :
    tokenize 100 (String.toList "\x7b\"a\":[\x7b]\x7d")
      = [.LeftBrace, .String, .Colon, .LeftSquareBracket, .LeftBrace,
         .RightSquareBracket, .RightBrace]
    ∧ parse 100 (String.toList "\x7b\"a\":[\x7b]\x7d") = true := by
  constructor
  · decide
  · have h : tokenize 100 (String.toList "\x7b\"a\":[\x7b]\x7d")
        = [.LeftBrace, .String, .Colon, .LeftSquareBracket, .LeftBrace,
           .RightSquareBracket, .RightBrace] := by decide
    unfold parse
    rw [h]
    simp [parseTokens, object, objectLoop, value, array, arrayLoop, match_token]

/-- C4: the document root is always an object: whenever the scanned
token sequence does not begin with a `LeftBrace` — in particular for
empty input and for a bare array, string or number at top level —
`parse` returns `false`. -/
theorem claim_C4_root_is_always_object (fuel : Nat) (input : List Char)
    (h : (tokenize fuel input).head? ≠ some TokenType.LeftBrace) :
    parse fuel input = false :=
  parseTokens_false_of_head_ne_leftBrace _ h

/-- Witness for C4 at the inputs named by the claim: empty input, a
bare array, a bare string and a bare number. -/
theorem claim_C4_root_is_always_object_witness :
    parse 100 (String.toList "") = false
    ∧ parse 100 (String.toList "[1]") = false
    ∧ parse 100 (String.toList "\"a\"") = false
    ∧ parse 100 (String.toList "1") = false :=
  ⟨claim_C4_root_is_always_object 100 _ (by decide),
   claim_C4_root_is_always_object 100 _ (by decide),
   claim_C4_root_is_always_object 100 _ (by decide),
   claim_C4_root_is_always_object 100 _ (by decide)⟩

/-- C8: empty composites are accepted: `{}` is a valid document, and
`{"a":[]}` — an empty array in value position — is valid too. -/
theorem claim_C8_empty_composites_accepted :
    parse 100 (String.toList "\x7b\x7d") = true
    ∧ parse 100 (String.toList "\x7b\"a\":[]\x7d") = true := by
  constructor
  · have h : tokenize 100 (String.toList "\x7b\x7d") = [.LeftBrace, .RightBrace] := by decide
    unfold parse
    rw [h]
    simp [parseTokens, object, objectLoop, value, array, arrayLoop, match_token]
  · have h : tokenize 100 (String.toList "\x7b\"a\":[]\x7d")
        = [.LeftBrace, .String, .Colon, .LeftSquareBracket, .RightSquareBracket,
           .RightBrace] := by decide
    unfold parse
    rw [h]
    simp [parseTokens, object, objectLoop, value, array, arrayLoop, match_token]

/-- C10: the spec demands that a read failure be surfaced as a
distinct, explicit failure result, not an uncontrolled process abort.
In the code every `read_line` is unwrapped with `.expect`, so the
validator's only two behaviors are a boolean result or a process
abort: a stream whose read fails aborts (first conjunct, failure on the
first read; second conjunct, failure after a good first line), while a
healthy stream yields a boolean.  No explicit failure result exists. -/
theorem claim_C10_read_failure_aborts :
    runValidator 100 [ReadEvent.ioError] = .abort
    ∧ runValidator 100 [ReadEvent.line (String.toList "\x7b\n"), ReadEvent.ioError] = .abort
    ∧ runValidator 100 [ReadEvent.line (String.toList "\x7b\x7d")] = .result true := by
  refine ⟨by decide, by decide, ?_⟩
  have h1 : runValidator 100 [ReadEvent.line (String.toList "\x7b\x7d")]
      = .result (parseTokens [.LeftBrace, .RightBrace]) := rfl
  rw [h1]
  simp [parseTokens, object, objectLoop, value, array, arrayLoop, match_token]
/-! ## Character-level facts about the lexer rules -/

/-- Unpacking `l.drop n = c :: r`: the index is in range, the element
under it is `c`, and the rest continues at `n + 1`. -/
theorem drop_eq_cons_inv {l : List Char} {n : Nat} {c : Char} {r : List Char}
    (h : l.drop n = c :: r) :
    n < l.length ∧ l[n]? = some c ∧ l.drop (n + 1) = r := by
  induction l generalizing n with
  | nil => simp at h
  | cons x xs ih =>
    cases n with
    | zero =>
      simp at h
      refine ⟨by simp, by simp [h.1], by simp [h.2]⟩
    | succ m =>
      simp only [List.drop_succ_cons] at h
      obtain ⟨h1, h2, h3⟩ := ih h
      exact ⟨by simp; omega, by simpa using h2, by simpa using h3⟩

theorem drop_nil_length_le {l : List Char} {n : Nat}
    (h : l.drop n = []) : l.length ≤ n := by
  have := List.length_drop n l
  rw [h] at this
  simp at this
  omega

theorem nextCharacter_of_drop_cons {s : LexState} {c : Char} {r : List Char}
    (h : s.line.drop s.offset = c :: r) :
    nextCharacter s = { s with curChar := some c, offset := s.offset + 1 } := by
  obtain ⟨h1, h2, _⟩ := drop_eq_cons_inv h
  simp [nextCharacter, Nat.not_le_of_lt h1, List.get?_eq_getElem?, h2]

theorem peek_of_drop_cons {s : LexState} {c : Char} {r : List Char}
    (h : s.line.drop s.offset = c :: r) : peek s = some c := by
  obtain ⟨h1, h2, _⟩ := drop_eq_cons_inv h
  simp [peek, Nat.not_le_of_lt h1, List.get?_eq_getElem?, h2]

theorem peek_of_drop_nil {s : LexState}
    (h : s.line.drop s.offset = []) : peek s = some '\n' := by
  simp [peek, drop_nil_length_le h]

/-- `next_num` consumes exactly a maximal digit run lying inside the
current line: if the characters under the cursor are the digits `ds`
followed by a non-digit (or the end of the line, whose peeked
character is a newline), the offset advances by `ds.length` and the
current character stays set. -/
theorem next_num_spec (ds : List Char) : ∀ (fuel : Nat) (s : LexState) (t : List Char),
    s.curChar.isSome = true →
    s.line.drop s.offset = ds ++ t →
    (∀ c ∈ ds, c.isDigit = true) →
    (t.headD '\n').isDigit = false →
    ds.length < fuel →
    ∃ y, next_num fuel s = { s with offset := s.offset + ds.length, curChar := some y } := by
  induction ds with
  | nil =>
    intro fuel s t hc hdrop _ hstop hfuel
    obtain ⟨f, rfl⟩ : ∃ f, fuel = f + 1 := ⟨fuel - 1, by omega⟩
    obtain ⟨y, hy⟩ := Option.isSome_iff_exists.mp hc
    refine ⟨y, ?_⟩
    simp only [next_num, hy]
    simp only [List.nil_append] at hdrop
    cases t with
    | nil =>
      rw [peek_of_drop_nil hdrop]
      have : ('\n'.isDigit = false) := by decide
      simp [this, ← hy]
    | cons c cr =>
      rw [peek_of_drop_cons hdrop]
      simp only [List.headD_cons] at hstop
      simp [hstop, ← hy]
  | cons d ds ih =>
    intro fuel s t hc hdrop hdig hstop hfuel
    obtain ⟨f, rfl⟩ : ∃ f, fuel = f + 1 := ⟨fuel - 1, by omega⟩
    obtain ⟨y0, hy0⟩ := Option.isSome_iff_exists.mp hc
    have hdrop' : s.line.drop s.offset = d :: (ds ++ t) := by simpa using hdrop
    have hd : d.isDigit = true := hdig d (by simp)
    have hrest : s.line.drop (s.offset + 1) = ds ++ t := (drop_eq_cons_inv hdrop').2.2
    have hnext := nextCharacter_of_drop_cons hdrop'
    obtain ⟨y, hy⟩ := ih f (nextCharacter s) t (by rw [hnext]; rfl)
      (by rw [hnext]; simpa using hrest)
      (fun c hcm => hdig c (by simp [hcm]))
      hstop (by simp only [List.length_cons] at hfuel; omega)
    refine ⟨y, ?_⟩
    simp only [next_num, hy0]
    rw [peek_of_drop_cons hdrop']
    simp only [hd]
    simp only [Bool.not_true]
    rw [if_neg (by simp)]
    rw [hy, hnext]
    have harith : s.offset + 1 + ds.length = s.offset + (ds.length + 1) := by omega
    simp [harith]

theorem drop_append_of_drop {l : List Char} {n : Nat} {ds t : List Char}
    (h : l.drop n = ds ++ t) : l.drop (n + ds.length) = t := by
  have h2 := List.drop_drop ds.length n l
  rw [h, List.drop_left] at h2
  exact h2.symm

/-- `number` when the digit run is followed by anything that is
neither a dot nor a digit (or by the end of the line): exactly the run
is consumed and one Number token is emitted. -/
theorem number_nodot_spec (fuel : Nat) (s : LexState) (d : Char) (ds t : List Char)
    (hc : s.curChar = some d) ( _hd : d.isDigit = true)
    (hdrop : s.line.drop s.offset = ds ++ t)
    (hdig : ∀ c ∈ ds, c.isDigit = true)
    (hstop : (t.headD '\n').isDigit = false)
    (hdot : t.headD '\n' ≠ '.')
    (hfuel : ds.length < fuel) :
    ∃ y, number fuel s
      = { s with offset := s.offset + ds.length, curChar := some y,
                 tokens := s.tokens ++ [TokenType.Number] } := by
  obtain ⟨y, hy⟩ := next_num_spec ds fuel s t (by simp [hc]) hdrop hdig hstop hfuel
  refine ⟨y, ?_⟩
  simp only [number, hy]
  have hdrop1 : s.line.drop (s.offset + ds.length) = t := drop_append_of_drop hdrop
  cases t with
  | nil =>
    have hpk : peek { s with offset := s.offset + ds.length, curChar := some y } = some '\n' :=
      peek_of_drop_nil (by simpa using hdrop1)
    simp only [hpk]
    rw [if_neg (by decide)]
    simp [add_token]
  | cons c cr =>
    have hpk : peek { s with offset := s.offset + ds.length, curChar := some y } = some c :=
      peek_of_drop_cons (by simpa using hdrop1)
    simp only [hpk]
    rw [if_neg (by simpa using hdot)]
    simp [add_token]

/-- `number` when the digit run is followed by a dot and then a
non-digit: the dot and that character are both consumed into the
Number token. -/
theorem number_dot_nondigit_spec (fuel : Nat) (s : LexState) (d c2 : Char) (ds t2 : List Char)
    (hc : s.curChar = some d) ( _hd : d.isDigit = true)
    (hdrop : s.line.drop s.offset = ds ++ '.' :: c2 :: t2)
    (hdig : ∀ c ∈ ds, c.isDigit = true)
    (hc2 : c2.isDigit = false)
    (hfuel : ds.length < fuel) :
    number fuel s
      = { s with offset := s.offset + ds.length + 2, curChar := some c2,
                 tokens := s.tokens ++ [TokenType.Number] } := by
  obtain ⟨y, hy⟩ := next_num_spec ds fuel s ('.' :: c2 :: t2) (by simp [hc]) hdrop hdig
    (by simp only [List.headD_cons]; decide) hfuel
  simp only [number, hy]
  have hdrop1 : s.line.drop (s.offset + ds.length) = '.' :: c2 :: t2 :=
    drop_append_of_drop hdrop
  have hpk : peek { s with offset := s.offset + ds.length, curChar := some y } = some '.' :=
    peek_of_drop_cons (by simpa using hdrop1)
  simp only [hpk]
  rw [if_pos trivial]
  have hn1 : nextCharacter { s with offset := s.offset + ds.length, curChar := some y }
      = { s with offset := s.offset + ds.length + 1, curChar := some '.' } := by
    have := nextCharacter_of_drop_cons (s := { s with offset := s.offset + ds.length, curChar := some y })
      (by simpa using hdrop1)
    simpa using this
  have hdrop2 : s.line.drop (s.offset + ds.length + 1) = c2 :: t2 :=
    (drop_eq_cons_inv hdrop1).2.2
  have hn2 : nextCharacter { s with offset := s.offset + ds.length + 1, curChar := some '.' }
      = { s with offset := s.offset + ds.length + 2, curChar := some c2 } := by
    have := nextCharacter_of_drop_cons
      (s := { s with offset := s.offset + ds.length + 1, curChar := some '.' })
      (by simpa using hdrop2)
    simpa using this
  rw [hn1, hn2]
  simp only [hc2]
  simp [add_token]

/-- `number` when the digit run is followed by a dot and a fractional
digit run: dot, that digit and the rest of the fractional run are all
consumed into the Number token. -/
theorem number_dot_digit_spec (fuel : Nat) (s : LexState) (d c2 : Char) (ds ds2 t3 : List Char)
    (hc : s.curChar = some d) ( _hd : d.isDigit = true)
    (hdrop : s.line.drop s.offset = ds ++ '.' :: c2 :: (ds2 ++ t3))
    (hdig : ∀ c ∈ ds, c.isDigit = true)
    (hc2 : c2.isDigit = true)
    (hdig2 : ∀ c ∈ ds2, c.isDigit = true)
    (hstop : (t3.headD '\n').isDigit = false)
    (hfuel : ds.length < fuel) (hfuel2 : ds2.length < fuel) :
    ∃ y, number fuel s
      = { s with offset := s.offset + ds.length + 2 + ds2.length, curChar := some y,
                 tokens := s.tokens ++ [TokenType.Number] } := by
  obtain ⟨y, hy⟩ := next_num_spec ds fuel s ('.' :: c2 :: (ds2 ++ t3)) (by simp [hc]) hdrop hdig
    (by simp only [List.headD_cons]; decide) hfuel
  simp only [number, hy]
  have hdrop1 : s.line.drop (s.offset + ds.length) = '.' :: c2 :: (ds2 ++ t3) :=
    drop_append_of_drop hdrop
  have hpk : peek { s with offset := s.offset + ds.length, curChar := some y } = some '.' :=
    peek_of_drop_cons (by simpa using hdrop1)
  simp only [hpk]
  rw [if_pos trivial]
  have hn1 : nextCharacter { s with offset := s.offset + ds.length, curChar := some y }
      = { s with offset := s.offset + ds.length + 1, curChar := some '.' } := by
    have := nextCharacter_of_drop_cons (s := { s with offset := s.offset + ds.length, curChar := some y })
      (by simpa using hdrop1)
    simpa using this
  have hdrop2 : s.line.drop (s.offset + ds.length + 1) = c2 :: (ds2 ++ t3) :=
    (drop_eq_cons_inv hdrop1).2.2
  have hn2 : nextCharacter { s with offset := s.offset + ds.length + 1, curChar := some '.' }
      = { s with offset := s.offset + ds.length + 2, curChar := some c2 } := by
    have := nextCharacter_of_drop_cons
      (s := { s with offset := s.offset + ds.length + 1, curChar := some '.' })
      (by simpa using hdrop2)
    simpa using this
  rw [hn1, hn2]
  simp only [hc2]
  have hdrop3 : s.line.drop (s.offset + ds.length + 2) = ds2 ++ t3 :=
    (drop_eq_cons_inv hdrop2).2.2
  obtain ⟨y2, hy2⟩ := next_num_spec ds2 fuel
    { s with offset := s.offset + ds.length + 2, curChar := some c2 } t3
    (by rfl) (by simpa using hdrop3) hdig2 hstop hfuel2
  refine ⟨y2, ?_⟩
  rw [if_pos trivial]
  rw [hy2]
  simp [add_token]

/-- C5 (as amended): `number` consumes the maximal digit run under the
cursor; if the run is followed by a dot, the dot and the character
right after it are consumed unconditionally into the same Number
token, the digit run continuing only when that character is itself a
digit; exactly one `Number` token is emitted for the whole span; and a
leading sign is never part of the token (`-1` and `+1` lex as an
`Other` token followed by a `Number`). -/
theorem claim_C5_number_lexing :
    (∀ (fuel : Nat) (s : LexState) (d : Char) (ds t : List Char),
      s.curChar = some d → d.isDigit = true →
      s.line.drop s.offset = ds ++ t →
      (∀ c ∈ ds, c.isDigit = true) →
      (t.headD '\n').isDigit = false →
      t.headD '\n' ≠ '.' →
      ds.length < fuel →
      ∃ y, number fuel s
        = { s with offset := s.offset + ds.length, curChar := some y,
                   tokens := s.tokens ++ [TokenType.Number] })
    ∧
    (∀ (fuel : Nat) (s : LexState) (d c2 : Char) (ds t2 : List Char),
      s.curChar = some d → d.isDigit = true →
      s.line.drop s.offset = ds ++ '.' :: c2 :: t2 →
      (∀ c ∈ ds, c.isDigit = true) →
      c2.isDigit = false →
      ds.length < fuel →
      number fuel s
        = { s with offset := s.offset + ds.length + 2, curChar := some c2,
                   tokens := s.tokens ++ [TokenType.Number] })
    ∧
    (∀ (fuel : Nat) (s : LexState) (d c2 : Char) (ds ds2 t3 : List Char),
      s.curChar = some d → d.isDigit = true →
      s.line.drop s.offset = ds ++ '.' :: c2 :: (ds2 ++ t3) →
      (∀ c ∈ ds, c.isDigit = true) →
      c2.isDigit = true →
      (∀ c ∈ ds2, c.isDigit = true) →
      (t3.headD '\n').isDigit = false →
      ds.length < fuel → ds2.length < fuel →
      ∃ y, number fuel s
        = { s with offset := s.offset + ds.length + 2 + ds2.length, curChar := some y,
                   tokens := s.tokens ++ [TokenType.Number] })
    ∧ tokenize 100 (String.toList "-1") = [.Other, .Number]
    ∧ tokenize 100 (String.toList "+1") = [.Other, .Number] := by
  exact ⟨fun fuel s d ds t h1 h2 h3 h4 h5 h6 h7 =>
      number_nodot_spec fuel s d ds t h1 h2 h3 h4 h5 h6 h7,
    fun fuel s d c2 ds t2 h1 h2 h3 h4 h5 h6 =>
      number_dot_nondigit_spec fuel s d c2 ds t2 h1 h2 h3 h4 h5 h6,
    fun fuel s d c2 ds ds2 t3 h1 h2 h3 h4 h5 h6 h7 h8 h9 =>
      number_dot_digit_spec fuel s d c2 ds ds2 t3 h1 h2 h3 h4 h5 h6 h7 h8 h9,
    by decide, by decide⟩

/-- C5 counterexample: the claim asserts the dot is consumed only when
followed by fractional digits.  On the digit-dot-brace input `1.}` the
lexer nevertheless swallows the dot and the closing brace into the
single Number token, so no `RightBrace` token exists, where the claim
predicts `Number`, `Other`, `RightBrace`. -/
theorem claim_C5_counterexample :
    tokenize 100 (String.toList "1.\x7d") = [TokenType.Number]
    ∧ tokenize 100 (String.toList "1.\x7d")
        ≠ [TokenType.Number, TokenType.Other, TokenType.RightBrace] := by
  constructor <;> decide

/-- Witness for C5 at concrete states: the three shapes of `number`
(`12}`: plain run; `1.}`: dot then non-digit, both swallowed; `1.25}`:
dot then fractional run). -/
theorem claim_C5_number_lexing_witness :
    (∃ y, number 10 ⟨[], String.toList "12\x7d", some '1', 1, 0, []⟩
      = ⟨[], String.toList "12\x7d", some y, 2, 0, [TokenType.Number]⟩)
    ∧ number 10 ⟨[], String.toList "1.\x7d", some '1', 1, 0, []⟩
      = ⟨[], String.toList "1.\x7d", some '}', 3, 0, [TokenType.Number]⟩
    ∧ (∃ y, number 10 ⟨[], String.toList "1.25\x7d", some '1', 1, 0, []⟩
      = ⟨[], String.toList "1.25\x7d", some y, 4, 0, [TokenType.Number]⟩) := by
  refine ⟨?_, ?_, ?_⟩
  · exact claim_C5_number_lexing.1 10 _ '1' ['2'] ['}']
      (by decide) (by decide) (by decide) (by decide) (by decide) (by decide) (by decide)
  · exact claim_C5_number_lexing.2.1 10 _ '1' '}' [] []
      (by decide) (by decide) (by decide) (by decide) (by decide) (by decide)
  · exact claim_C5_number_lexing.2.2.1 10 _ '1' '2' [] ['5'] ['}']
      (by decide) (by decide) (by decide) (by decide) (by decide) (by decide)
      (by decide) (by decide) (by decide)

/-- The string loop consumes exactly up to the first quote: if the
character just consumed is `x` and `x` followed by the rest of the
line reads `body ++ '"' :: t` with no quote inside `body`, the loop
stops on the quote having advanced by `body.length`.  A backslash in
`body` is an ordinary character. -/
theorem stringRun_spec (body : List Char) : ∀ (fuel : Nat) (s : LexState) (t : List Char) (x : Char),
    s.curChar = some x →
    x :: s.line.drop s.offset = body ++ '"' :: t →
    '"' ∉ body →
    body.length < fuel →
    stringRun fuel s = { s with offset := s.offset + body.length, curChar := some '"' } := by
  induction body with
  | nil =>
    intro fuel s t x hc heq hq hfuel
    obtain ⟨f, rfl⟩ : ∃ f, fuel = f + 1 := ⟨fuel - 1, by omega⟩
    have hx : x = '"' := by
      have := congrArg List.head? heq
      simpa using this
    subst hx
    simp only [stringRun, hc]
    rw [if_pos trivial]
    obtain ⟨rest, line, curChar, offset, start, tokens⟩ := s
    simp at hc
    simp [hc]
  | cons b bs ih =>
    intro fuel s t x hc heq hq hfuel
    obtain ⟨f, rfl⟩ : ∃ f, fuel = f + 1 := ⟨fuel - 1, by omega⟩
    have hx : x = b := by
      have := congrArg List.head? heq
      simpa using this
    subst hx
    have hb : ¬ x = '"' := by
      intro he; exact hq (by simp [he])
    have hdrop : s.line.drop s.offset = bs ++ '"' :: t := by
      have := congrArg List.tail heq
      simpa using this
    rcases hl : bs ++ '"' :: t with _ | ⟨c, r⟩
    · cases bs <;> simp at hl
    · rw [hl] at hdrop
      have hn := nextCharacter_of_drop_cons hdrop
      have hrest : s.line.drop (s.offset + 1) = r := (drop_eq_cons_inv hdrop).2.2
      have happ := ih f (nextCharacter s) t c (by rw [hn]) 
        (by rw [hn]; simp only; rw [hrest, hl])
        (fun hm => hq (by simp [hm]))
        (by simp only [List.length_cons] at hfuel; omega)
      simp only [stringRun, hc]
      rw [if_neg hb, happ, hn]
      have harith : s.offset + 1 + bs.length = s.offset + (bs.length + 1) := by omega
      simp [harith]

/-- `scan_token` on a quote: it consumes up to the next quote --
whatever stands in between, a backslash being an ordinary character --
and emits a single String token. -/
theorem scan_token_string_spec (fuel : Nat) (s : LexState) (body t : List Char)
    (hq : '"' ∉ body)
    (hdrop : s.line.drop s.offset = '"' :: (body ++ '"' :: t))
    (hfuel : body.length < fuel) :
    scan_token fuel s
      = { s with offset := s.offset + body.length + 2, curChar := some '"',
                 tokens := s.tokens ++ [TokenType.String] } := by
  have hn1 : nextCharacter s = { s with curChar := some '"', offset := s.offset + 1 } :=
    nextCharacter_of_drop_cons hdrop
  have hdrop2 : s.line.drop (s.offset + 1) = body ++ '"' :: t := (drop_eq_cons_inv hdrop).2.2
  rcases hl : body ++ '"' :: t with _ | ⟨c, r⟩
  · cases body <;> simp at hl
  · rw [hl] at hdrop2
    have hn2 : nextCharacter { s with curChar := some '"', offset := s.offset + 1 }
        = { s with curChar := some c, offset := s.offset + 2 } := by
      have := nextCharacter_of_drop_cons
        (s := { s with curChar := some '"', offset := s.offset + 1 }) (by simpa using hdrop2)
      simpa using this
    have hrest : s.line.drop (s.offset + 2) = r := by
      have := (drop_eq_cons_inv hdrop2).2.2
      simpa using this
    have hrun := stringRun_spec body fuel
      { s with curChar := some c, offset := s.offset + 2 } t c rfl
      (by simp only; rw [hrest, hl]) hq hfuel
    simp only [scan_token, hn1]
    simp only [show ¬(('"':Char) = '{') from by decide, if_false,
      show ¬(('"':Char) = '}') from by decide,
      show ¬(('"':Char) = ':') from by decide,
      show ¬(('"':Char) = ',') from by decide,
      show ¬(('"':Char) = '[') from by decide,
      show ¬(('"':Char) = ']') from by decide, if_true, ite_false, ite_true]
    rw [hn2, hrun]
    have harith : s.offset + 2 + body.length = s.offset + body.length + 2 := by omega
    simp [add_token, harith]

/-- C6: string lexing performs no escape processing.  When `scan_token`
meets a quote it consumes up to the next quote, whatever stands in
between — a backslash does not protect an embedded quote — and emits a
single String token spanning it.  On the input `"a\"b""` the first
String token therefore ends at the backslash-preceded quote, leaving
`b` outside as an `Other` token. -/
theorem claim_C6_string_lexing :
    (∀ (fuel : Nat) (s : LexState) (body t : List Char),
      '"' ∉ body →
      s.line.drop s.offset = '"' :: (body ++ '"' :: t) →
      body.length < fuel →
      scan_token fuel s
        = { s with offset := s.offset + body.length + 2, curChar := some '"',
                   tokens := s.tokens ++ [TokenType.String] })
    ∧ tokenize 100 (String.toList "\"a\\\"b\"\"") = [.String, .Other, .String] := by
  exact ⟨fun fuel s body t h1 h2 h3 => scan_token_string_spec fuel s body t h1 h2 h3, by decide⟩

/-- Witness for C6 at a concrete state: scanning `"a\" x` from the
start emits a String token that ends at the quote preceded by a
backslash, the offset resting just past that quote. -/
theorem claim_C6_string_lexing_witness :
    scan_token 10 ⟨[], String.toList "\"a\\\" x", none, 0, 0, []⟩
      = ⟨[], String.toList "\"a\\\" x", some '"', 4, 0, [TokenType.String]⟩ :=
  claim_C6_string_lexing.1 10 _ ['a', '\\'] [' ', 'x'] (by decide) (by decide) (by decide)

/-- The scanning loop of `Lexer::keyword` consumes exactly a maximal
alphabetic run lying inside the current line. -/
theorem keywordRun_spec (cs : List Char) : ∀ (fuel : Nat) (s : LexState) (t : List Char),
    s.curChar.isSome = true →
    s.line.drop s.offset = cs ++ t →
    (∀ c ∈ cs, c.isAlpha = true) →
    (t.headD '\n').isAlpha = false →
    cs.length < fuel →
    ∃ y, keywordRun fuel s = { s with offset := s.offset + cs.length, curChar := some y } := by
  induction cs with
  | nil =>
    intro fuel s t hc hdrop _ hstop hfuel
    obtain ⟨f, rfl⟩ : ∃ f, fuel = f + 1 := ⟨fuel - 1, by omega⟩
    obtain ⟨y, hy⟩ := Option.isSome_iff_exists.mp hc
    refine ⟨y, ?_⟩
    simp only [keywordRun, hy]
    simp only [List.nil_append] at hdrop
    cases t with
    | nil =>
      rw [peek_of_drop_nil hdrop]
      have : ('\n'.isAlpha = false) := by decide
      simp [this, ← hy]
    | cons c cr =>
      rw [peek_of_drop_cons hdrop]
      simp only [List.headD_cons] at hstop
      simp [hstop, ← hy]
  | cons d ds ih =>
    intro fuel s t hc hdrop hdig hstop hfuel
    obtain ⟨f, rfl⟩ : ∃ f, fuel = f + 1 := ⟨fuel - 1, by omega⟩
    obtain ⟨y0, hy0⟩ := Option.isSome_iff_exists.mp hc
    have hdrop' : s.line.drop s.offset = d :: (ds ++ t) := by simpa using hdrop
    have hd : d.isAlpha = true := hdig d (by simp)
    have hrest : s.line.drop (s.offset + 1) = ds ++ t := (drop_eq_cons_inv hdrop').2.2
    have hnext := nextCharacter_of_drop_cons hdrop'
    obtain ⟨y, hy⟩ := ih f (nextCharacter s) t (by rw [hnext]; rfl)
      (by rw [hnext]; simpa using hrest)
      (fun c hcm => hdig c (by simp [hcm]))
      hstop (by simp only [List.length_cons] at hfuel; omega)
    refine ⟨y, ?_⟩
    simp only [keywordRun, hy0]
    rw [peek_of_drop_cons hdrop']
    simp only [hd]
    simp only [Bool.not_true]
    rw [if_neg (by simp)]
    rw [hy, hnext]
    have harith : s.offset + 1 + ds.length = s.offset + (ds.length + 1) := by omega
    simp [harith]

/-- `Lexer::keyword` consumes the maximal alphabetic run starting at
the character just consumed and emits the keyword-table lookup of the
exact run, defaulting to `Other`. -/
theorem keyword_spec (fuel : Nat) (s : LexState) (a : Char) (cs t : List Char)
    (hc : s.curChar = some a)
    (hoff : s.offset = s.start + 1)
    (hdrop : s.line.drop s.start = a :: (cs ++ t))
    (halpha : ∀ c ∈ cs, c.isAlpha = true)
    (hstop : (t.headD '\n').isAlpha = false)
    (hfuel : cs.length < fuel) :
    ∃ y, keyword fuel s
      = { s with offset := s.start + 1 + cs.length, curChar := some y,
                 tokens := s.tokens ++ [(keywords (a :: cs)).getD TokenType.Other] } := by
  have hdrop1 : s.line.drop s.offset = cs ++ t := by
    rw [hoff]
    exact (drop_eq_cons_inv hdrop).2.2
  obtain ⟨y, hy⟩ := keywordRun_spec cs fuel s t (by simp [hc]) hdrop1 halpha hstop hfuel
  refine ⟨y, ?_⟩
  simp only [keyword, hy]
  have hslice : (s.line.drop s.start).take (s.offset + cs.length - s.start) = a :: cs := by
    rw [hdrop, hoff]
    have harith : s.start + 1 + cs.length - s.start = cs.length + 1 := by omega
    rw [harith]
    simp [List.take_left]
  simp only [hslice]
  cases hk : keywords (a :: cs) with
  | none => simp [add_token, hk, hoff]
  | some k => simp [add_token, hk, hoff]

/-- C7: keyword lexing.  `Lexer::keyword` consumes the maximal
alphabetic run starting at the character just consumed and looks the
exact run up in the fixed keyword table, emitting `True`, `False` or
`Null` on an exact match and `Other` otherwise; the table holds
exactly `true`, `false` and `null`, and `tru` misses it, so
`{"a":tru}` scans to an `Other` in value position and `parse` rejects
it. -/
theorem claim_C7_keyword_lexing :
    (∀ (fuel : Nat) (s : LexState) (a : Char) (cs t : List Char),
      s.curChar = some a →
      s.offset = s.start + 1 →
      s.line.drop s.start = a :: (cs ++ t) →
      (∀ c ∈ cs, c.isAlpha = true) →
      (t.headD '\n').isAlpha = false →
      cs.length < fuel →
      ∃ y, keyword fuel s
        = { s with offset := s.start + 1 + cs.length, curChar := some y,
                   tokens := s.tokens ++ [(keywords (a :: cs)).getD TokenType.Other] })
    ∧ keywords (String.toList "true") = some TokenType.True
    ∧ keywords (String.toList "false") = some TokenType.False
    ∧ keywords (String.toList "null") = some TokenType.Null
    ∧ keywords (String.toList "tru") = none
    ∧ tokenize 100 (String.toList "\x7b\"a\":tru\x7d")
        = [.LeftBrace, .String, .Colon, .Other, .RightBrace]
    ∧ parse 100 (String.toList "\x7b\"a\":tru\x7d") = false := by
  refine ⟨fun fuel s a cs t h1 h2 h3 h4 h5 h6 => keyword_spec fuel s a cs t h1 h2 h3 h4 h5 h6,
    by decide, by decide, by decide, by decide, by decide, ?_⟩
  have h : tokenize 100 (String.toList "\x7b\"a\":tru\x7d")
      = [.LeftBrace, .String, .Colon, .Other, .RightBrace] := by decide
  unfold parse
  rw [h]
  simp [parseTokens, object, objectLoop, value, array, arrayLoop, match_token]

/-- Witness for C7 at concrete states: the run `true` hits the keyword
table and yields a `True` token; the run `tru` misses it and yields
`Other`. -/
theorem claim_C7_keyword_lexing_witness :
    (∃ y, keyword 10 ⟨[], String.toList "true\x7d", some 't', 1, 0, []⟩
      = ⟨[], String.toList "true\x7d", some y, 4, 0, [TokenType.True]⟩)
    ∧ (∃ y, keyword 10 ⟨[], String.toList "tru\x7d", some 't', 1, 0, []⟩
      = ⟨[], String.toList "tru\x7d", some y, 3, 0, [TokenType.Other]⟩) := by
  constructor
  · exact claim_C7_keyword_lexing.1 10 _ 't' ['r', 'u', 'e'] ['}']
      (by decide) (by decide) (by decide) (by decide) (by decide) (by decide)
  · exact claim_C7_keyword_lexing.1 10 _ 't' ['r', 'u'] ['}']
      (by decide) (by decide) (by decide) (by decide) (by decide) (by decide)

/-! ## Whitespace variation

To state whitespace invariance, an input is presented as a sequence of
lexemes — the surface forms of the lexer's rules — separated by
arbitrary whitespace (spaces and newlines).  `render` rebuilds the
character stream; the theorems below show that its tokenization is
exactly the lexeme kinds, independent of the whitespace, as long as
adjacent lexemes that could merge stay separated (`Separated`). -/

/-- The surface form of one token: a punctuation character, a quoted
string, a number (with or without a fractional part), an alphabetic
run, or a single otherwise-unclassified character. -/
inductive Lexeme where
  | punct (c : Char)
  | str (body : List Char)
  | num (ds : List Char)
  | numFrac (ds fs : List Char)
  | alpha (cs : List Char)
  | other (c : Char)
deriving DecidableEq

/-- The characters a lexeme stands for. -/
def Lexeme.chars : Lexeme → List Char
  | punct c => [c]
  | str body => '"' :: (body ++ ['"'])
  | num ds => ds
  | numFrac ds fs => ds ++ '.' :: fs
  | alpha cs => cs
  | other c => [c]

/-- The token the lexer emits for a lexeme. -/
def Lexeme.kind : Lexeme → TokenType
  | punct c =>
      if c = '{' then .LeftBrace
      else if c = '}' then .RightBrace
      else if c = ':' then .Colon
      else if c = ',' then .Comma
      else if c = '[' then .LeftSquareBracket
      else .RightSquareBracket
  | str _ => .String
  | num _ => .Number
  | numFrac _ _ => .Number
  | alpha cs => (keywords cs).getD .Other
  | other _ => .Other

/-- Well-formedness of a lexeme. -/
def Lexeme.WF : Lexeme → Prop
  | punct c => c = '{' ∨ c = '}' ∨ c = ':' ∨ c = ',' ∨ c = '[' ∨ c = ']'
  | str body => '"' ∉ body ∧ '\n' ∉ body
  | num ds => ds ≠ [] ∧ ∀ c ∈ ds, c.isDigit = true
  | numFrac ds fs => ds ≠ [] ∧ fs ≠ [] ∧ (∀ c ∈ ds, c.isDigit = true)
      ∧ (∀ c ∈ fs, c.isDigit = true)
  | alpha cs => cs ≠ [] ∧ ∀ c ∈ cs, c.isAlpha = true
  | other c => c.isDigit = false ∧ c.isAlpha = false
      ∧ c ≠ '{' ∧ c ≠ '}' ∧ c ≠ ':' ∧ c ≠ ',' ∧ c ≠ '[' ∧ c ≠ ']'
      ∧ c ≠ '"' ∧ c ≠ '\n' ∧ c ≠ ' '

/-- A gap is made of spaces and newlines only. -/
def WS (g : List Char) : Prop := ∀ c ∈ g, c = ' ' ∨ c = '\n'

/-- May lexeme `l` be followed *directly* by a character `c`?  Only
runs that the lexer continues greedily impose a condition. -/
def Lexeme.delim : Lexeme → Char → Prop
  | punct _, _ => True
  | str _, _ => True
  | other _, _ => True
  | num _, c => c.isDigit = false ∧ c ≠ '.'
  | numFrac _ _, c => c.isDigit = false ∧ c ≠ '.'
  | alpha _, c => c.isAlpha = false

/-- The character that follows a lexeme in the rendered stream: the
head of its gap, else the first character of the next lexeme, else the
synthetic newline the lexer peeks at the end of input. -/
def followCharOf (g : List Char) (next : Option Lexeme) : Char :=
  match g with
  | c :: _ => c
  | [] =>
    match next with
    | some l => l.chars.headD '\n'
    | none => '\n'

/-- Adjacent lexemes stay separated: whenever a gap is empty, the
preceding lexeme tolerates the character that follows it. -/
def Separated : List (Lexeme × List Char) → Prop
  | [] => True
  | (l, g) :: rest => l.delim (followCharOf g (rest.head?.map Prod.fst)) ∧ Separated rest

/-- Rebuild the character stream from lexemes and the gaps after them. -/
def renderItems : List (Lexeme × List Char) → List Char
  | [] => []
  | (l, g) :: rest => l.chars ++ (g ++ renderItems rest)

/-- Rebuild the full input: a leading gap, then the lexemes. -/
def render (g0 : List Char) (items : List (Lexeme × List Char)) : List Char :=
  g0 ++ renderItems items

/-- A newline can occur only as the last character. -/
def nlOnlyEnd (l : List Char) : Prop := '\n' ∉ l.dropLast

/-- The shape of the line list a `BufRead` produces: every line is
nonempty, contains its newline only at the end, and every line but the
last ends with one. -/
def LinesWF : List (List Char) → Prop
  | [] => True
  | l :: ls => l ≠ [] ∧ nlOnlyEnd l ∧ (ls ≠ [] → l.getLast? = some '\n') ∧ LinesWF ls

/-- The lexer-state invariant tying a state to the text it still has
to scan. -/
def ScanInv (s : LexState) (T : List Char) : Prop :=
  s.line.drop s.offset ++ (s.rest).flatten = T
  ∧ nlOnlyEnd s.line
  ∧ (s.rest ≠ [] → s.line.getLast? = some '\n')
  ∧ LinesWF s.rest
  ∧ (s.line = [] → s.rest = [])

/-! ### Small character and list facts -/

theorem isAlpha_isDigit_false {c : Char} (h : c.isAlpha = true) : c.isDigit = false := by
  simp [Char.isAlpha, Char.isUpper, Char.isLower, Char.isDigit] at h ⊢
  intro h3
  have n3 : (48:UInt32).toNat ≤ c.val.toNat := h3
  rw [show (48:UInt32).toNat = 48 from rfl] at n3
  show (57:UInt32).toNat < c.val.toNat
  rw [show (57:UInt32).toNat = 57 from rfl]
  rcases h with ⟨h1, h2⟩ | ⟨h1, h2⟩
  · have n1 : (65:UInt32).toNat ≤ c.val.toNat := h1
    rw [show (65:UInt32).toNat = 65 from rfl] at n1
    omega
  · have n1 : (97:UInt32).toNat ≤ c.val.toNat := h1
    rw [show (97:UInt32).toNat = 97 from rfl] at n1
    omega

/-- A character class that holds of `c` but not of `z` separates them. -/
theorem ne_of_isDigit {c z : Char} (h : c.isDigit = true) (hz : z.isDigit = false) : c ≠ z := by
  intro he; subst he; rw [h] at hz; cases hz

theorem ne_of_isAlpha {c z : Char} (h : c.isAlpha = true) (hz : z.isAlpha = false) : c ≠ z := by
  intro he; subst he; rw [h] at hz; cases hz

/-! ### `splitLines` rebuilds the stream faithfully -/

theorem splitLines_flatten (x : List Char) : (splitLines x).flatten = x := by
  induction x with
  | nil => simp [splitLines]
  | cons c cs ih =>
    simp only [splitLines]
    split
    · rename_i hc
      subst hc
      simp [ih]
    · cases hl : splitLines cs with
      | nil =>
        rw [hl] at ih
        simp at ih
        simp [ih]
      | cons l ls =>
        rw [hl] at ih
        simp at ih ⊢
        simpa using ih

theorem splitLines_WF (x : List Char) : LinesWF (splitLines x) := by
  induction x with
  | nil => simp [splitLines, LinesWF]
  | cons c cs ih =>
    simp only [splitLines]
    split
    · rename_i hc
      refine ⟨by simp, by simp [nlOnlyEnd], ?_, ih⟩
      intro _
      rfl
    · rename_i hc
      cases hl : splitLines cs with
      | nil =>
        refine ⟨by simp, by simp [nlOnlyEnd], by simp, by simp [LinesWF]⟩
      | cons l ls =>
        rw [hl] at ih
        obtain ⟨hne, hnl, hlast, hrest⟩ := ih
        refine ⟨by simp, ?_, ?_, hrest⟩
        · -- nlOnlyEnd (c :: l)
          cases l with
          | nil => cases hne rfl
          | cons y ys =>
            simp only [nlOnlyEnd, List.dropLast_cons₂, List.mem_cons] at hnl ⊢
            rintro (h | h)
            · exact hc h.symm
            · exact hnl h
        · intro hls
          cases l with
          | nil => cases hne rfl
          | cons y ys =>
            rw [List.getLast?_cons_cons]
            exact hlast hls

/-- The freshly built lexer state satisfies the scan invariant for the
whole input. -/
theorem scanInv_init (x : List Char) : ScanInv (initLexer (splitLines x)) x := by
  have hwf := splitLines_WF x
  have hfl := splitLines_flatten x
  cases hl : splitLines x with
  | nil =>
    rw [hl] at hfl
    simp at hfl
    subst hfl
    exact ⟨by simp [initLexer, readLine], by simp [initLexer, readLine, nlOnlyEnd],
      by simp [initLexer, readLine], by simp [initLexer, readLine, LinesWF],
      by simp [initLexer, readLine]⟩
  | cons l ls =>
    rw [hl] at hfl hwf
    obtain ⟨hne, hnl, hlast, hrest⟩ := hwf
    refine ⟨?_, ?_, ?_, ?_, ?_⟩
    · simp [initLexer, readLine]
      simpa using hfl
    · simpa [initLexer, readLine] using hnl
    · simpa [initLexer, readLine] using hlast
    · simpa [initLexer, readLine] using hrest
    · simp [initLexer, readLine]
      intro h
      exact absurd h hne

/-! ### Facts about lexeme surface forms -/

theorem Lexeme.chars_ne_nil {l : Lexeme} (h : l.WF) : l.chars ≠ [] := by
  cases l <;> simp only [Lexeme.chars, Lexeme.WF] at h ⊢ <;> simp_all

theorem Lexeme.nl_not_mem_chars {l : Lexeme} (h : l.WF) : '\n' ∉ l.chars := by
  cases l with
  | punct c =>
    simp only [Lexeme.WF] at h
    simp only [Lexeme.chars, List.mem_singleton]
    rcases h with h | h | h | h | h | h <;> (subst h; decide)
  | str body =>
    simp only [Lexeme.WF] at h
    simp only [Lexeme.chars, List.mem_cons, List.mem_append, List.mem_singleton]
    rintro (he | he | he)
    · exact absurd he.symm (by decide)
    · exact h.2 he
    · exact absurd he.symm (by decide)
  | num ds =>
    simp only [Lexeme.WF] at h
    simp only [Lexeme.chars]
    intro hm
    exact absurd (h.2 _ hm) (by decide)
  | numFrac ds fs =>
    simp only [Lexeme.WF] at h
    simp only [Lexeme.chars, List.mem_append, List.mem_cons]
    rintro (hm | hm | hm)
    · exact absurd (h.2.2.1 _ hm) (by decide)
    · exact absurd hm.symm (by decide)
    · exact absurd (h.2.2.2 _ hm) (by decide)
  | alpha cs =>
    simp only [Lexeme.WF] at h
    simp only [Lexeme.chars]
    intro hm
    exact absurd (h.2 _ hm) (by decide)
  | other c =>
    simp only [Lexeme.WF] at h
    simp only [Lexeme.chars, List.mem_singleton]
    intro he
    exact h.2.2.2.2.2.2.2.2.2.1 he.symm

/-! ### Stepping lemmas for the scan loop -/

/-- At end of input the scan loop stops immediately. -/
theorem scan_tokens_stop (fuel : Nat) (s : LexState) (h : s.line = []) :
    scan_tokens fuel s = s := by
  cases fuel with
  | zero => rfl
  | succ f => simp [scan_tokens, at_end, h]

/-- Skipping one whitespace character inside the current line. -/
theorem scan_tokens_ws_step (fuel : Nat) (s : LexState) (c : Char) (r : List Char)
    (hdrop : s.line.drop s.offset = c :: r)
    (hws : c = ' ' ∨ c = '\n') :
    scan_tokens (fuel + 1) s
      = scan_tokens fuel { s with start := s.offset, curChar := some c,
                                  offset := s.offset + 1 } := by
  have hne : ¬ s.line.isEmpty = true := by
    obtain ⟨hlt, _, _⟩ := drop_eq_cons_inv hdrop
    cases hl : s.line with
    | nil => rw [hl] at hlt; simp at hlt
    | cons a as => simp
  have hn : nextCharacter { s with start := s.offset }
      = { s with start := s.offset, curChar := some c, offset := s.offset + 1 } := by
    have := nextCharacter_of_drop_cons (s := { s with start := s.offset }) (by simpa using hdrop)
    simpa using this
  simp only [scan_tokens, at_end]
  rw [if_neg (by simp [hne])]
  congr 1
  simp only [scan_token, hn]
  rcases hws with h | h <;> (subst h; simp)

/-- Crossing a line boundary: the synthetic newline is skipped and the
next line is loaded. -/
theorem scan_tokens_boundary_step (fuel : Nat) (s : LexState)
    (hdrop : s.line.drop s.offset = [])
    (hne : s.line ≠ []) :
    scan_tokens (fuel + 1) s
      = scan_tokens fuel { s with start := s.offset,
                                  rest := (readLine s.rest).2,
                                  line := (readLine s.rest).1,
                                  curChar := some '\n', offset := 0 } := by
  have hlen : s.line.length ≤ s.offset := drop_nil_length_le hdrop
  have hnem : ¬ s.line.isEmpty = true := by
    cases hl : s.line with
    | nil => exact absurd hl hne
    | cons a as => simp
  simp only [scan_tokens, at_end]
  rw [if_neg (by simp [hnem])]
  congr 1
  simp only [scan_token, nextCharacter]
  rw [if_pos (by simpa using hlen)]
  simp

/-- `scan_token` on the first character of a well-formed, delimited
lexeme lying inside the current line: exactly the lexeme is consumed
and its kind is emitted. -/
theorem scan_token_lexeme_spec (fuel : Nat) (s : LexState) (l : Lexeme) (rtail : List Char)
    (hwf : l.WF)
    (hdrop : s.line.drop s.offset = l.chars ++ rtail)
    (hdelim : l.delim (rtail.headD '\n'))
    (hstart : s.start = s.offset)
    (hfuel : l.chars.length < fuel) :
    ∃ y, scan_token fuel s
      = { s with offset := s.offset + l.chars.length, curChar := some y,
                 tokens := s.tokens ++ [l.kind] } := by
  cases l with
  | punct c =>
    simp only [Lexeme.WF] at hwf
    simp only [Lexeme.chars, List.cons_append, List.nil_append] at hdrop
    have hn := nextCharacter_of_drop_cons hdrop
    refine ⟨c, ?_⟩
    simp only [scan_token, hn]
    rcases hwf with h | h | h | h | h | h <;>
      (subst h; simp [add_token, Lexeme.kind, Lexeme.chars])
  | str body =>
    simp only [Lexeme.WF] at hwf
    have hdrop' : s.line.drop s.offset = '"' :: (body ++ '"' :: rtail) := by
      simpa [Lexeme.chars] using hdrop
    refine ⟨'"', ?_⟩
    have := scan_token_string_spec fuel s body rtail hwf.1 hdrop'
      (by simp [Lexeme.chars] at hfuel; omega)
    rw [this]
    simp only [Lexeme.chars, Lexeme.kind]
    have harith : s.offset + body.length + 2 = s.offset + ('"' :: (body ++ ['"'])).length := by
      simp; omega
    rw [harith]
  | num ds =>
    obtain ⟨hne, hdig⟩ := hwf
    cases ds with
    | nil => cases hne rfl
    | cons d ds' =>
      simp only [Lexeme.chars, List.cons_append] at hdrop
      have hn := nextCharacter_of_drop_cons hdrop
      have hd : d.isDigit = true := hdig d (by simp)
      obtain ⟨hstop, hdot⟩ := hdelim
      obtain ⟨y, hy⟩ := number_nodot_spec fuel
        { s with curChar := some d, offset := s.offset + 1 } d ds' rtail
        rfl hd (by simpa using (drop_eq_cons_inv hdrop).2.2)
        (fun c hm => hdig c (by simp [hm])) hstop hdot
        (by simp [Lexeme.chars] at hfuel; omega)
      have hnw : ¬(d = '\n' ∨ d = ' ') := by
        push_neg
        exact ⟨ne_of_isDigit hd (by decide), ne_of_isDigit hd (by decide)⟩
      refine ⟨y, ?_⟩
      simp only [scan_token, hn]
      rw [if_neg (ne_of_isDigit hd (by decide)), if_neg (ne_of_isDigit hd (by decide)),
          if_neg (ne_of_isDigit hd (by decide)), if_neg (ne_of_isDigit hd (by decide)),
          if_neg (ne_of_isDigit hd (by decide)), if_neg (ne_of_isDigit hd (by decide)),
          if_neg (ne_of_isDigit hd (by decide)), if_neg hnw, if_pos hd]
      rw [hy]
      simp only [Lexeme.kind, Lexeme.chars]
      have harith : s.offset + 1 + ds'.length = s.offset + (d :: ds').length := by
        simp; omega
      simp only [harith]
  | numFrac ds fs =>
    obtain ⟨hne, hfne, hdig, hfdig⟩ := hwf
    cases ds with
    | nil => cases hne rfl
    | cons d ds' =>
      cases fs with
      | nil => cases hfne rfl
      | cons f1 fs' =>
        have hdrop' : s.line.drop s.offset
            = d :: (ds' ++ '.' :: f1 :: (fs' ++ rtail)) := by
          simpa [Lexeme.chars] using hdrop
        have hn := nextCharacter_of_drop_cons hdrop'
        have hd : d.isDigit = true := hdig d (by simp)
        obtain ⟨hstop, _⟩ := hdelim
        obtain ⟨y, hy⟩ := number_dot_digit_spec fuel
          { s with curChar := some d, offset := s.offset + 1 } d f1 ds' fs' rtail
          rfl hd (by simpa using (drop_eq_cons_inv hdrop').2.2)
          (fun c hm => hdig c (by simp [hm]))
          (hfdig f1 (by simp))
          (fun c hm => hfdig c (by simp [hm]))
          hstop
          (by simp [Lexeme.chars] at hfuel; omega)
          (by simp [Lexeme.chars] at hfuel; omega)
        have hnw : ¬(d = '\n' ∨ d = ' ') := by
          push_neg
          exact ⟨ne_of_isDigit hd (by decide), ne_of_isDigit hd (by decide)⟩
        refine ⟨y, ?_⟩
        simp only [scan_token, hn]
        rw [if_neg (ne_of_isDigit hd (by decide)), if_neg (ne_of_isDigit hd (by decide)),
            if_neg (ne_of_isDigit hd (by decide)), if_neg (ne_of_isDigit hd (by decide)),
            if_neg (ne_of_isDigit hd (by decide)), if_neg (ne_of_isDigit hd (by decide)),
            if_neg (ne_of_isDigit hd (by decide)), if_neg hnw, if_pos hd]
        rw [hy]
        simp only [Lexeme.kind, Lexeme.chars]
        have harith : s.offset + 1 + ds'.length + 2 + fs'.length
            = s.offset + (d :: ds' ++ '.' :: f1 :: fs').length := by
          simp; omega
        simp only [harith]
  | alpha cs =>
    obtain ⟨hne, halpha⟩ := hwf
    cases cs with
    | nil => cases hne rfl
    | cons a cs' =>
      simp only [Lexeme.chars, List.cons_append] at hdrop
      have hn := nextCharacter_of_drop_cons hdrop
      have ha : a.isAlpha = true := halpha a (by simp)
      obtain ⟨y, hy⟩ := keyword_spec fuel
        { s with curChar := some a, offset := s.offset + 1 } a cs' rtail
        rfl (by simp [hstart])
        (by simpa [hstart] using hdrop)
        (fun c hm => halpha c (by simp [hm])) hdelim
        (by simp [Lexeme.chars] at hfuel; omega)
      have hnw : ¬(a = '\n' ∨ a = ' ') := by
        push_neg
        exact ⟨ne_of_isAlpha ha (by decide), ne_of_isAlpha ha (by decide)⟩
      refine ⟨y, ?_⟩
      simp only [scan_token, hn]
      rw [if_neg (ne_of_isAlpha ha (by decide)), if_neg (ne_of_isAlpha ha (by decide)),
          if_neg (ne_of_isAlpha ha (by decide)), if_neg (ne_of_isAlpha ha (by decide)),
          if_neg (ne_of_isAlpha ha (by decide)), if_neg (ne_of_isAlpha ha (by decide)),
          if_neg (ne_of_isAlpha ha (by decide)), if_neg hnw,
          if_neg (by simp [isAlpha_isDigit_false ha]), if_pos ha]
      rw [hy]
      simp only [Lexeme.kind, Lexeme.chars]
      simp only [hstart]
      have harith2 : s.offset + 1 + cs'.length = s.offset + (a :: cs').length := by
        simp; omega
      rw [harith2]
  | other c =>
    obtain ⟨hdig, halpha, h1, h2, h3, h4, h5, h6, h7, h8, h9⟩ := hwf
    simp only [Lexeme.chars, List.cons_append, List.nil_append] at hdrop
    have hn := nextCharacter_of_drop_cons hdrop
    have hnw : ¬(c = '\n' ∨ c = ' ') := by
      push_neg
      exact ⟨h8, h9⟩
    refine ⟨c, ?_⟩
    simp only [scan_token, hn]
    rw [if_neg h1, if_neg h2, if_neg h3, if_neg h4, if_neg h5, if_neg h6, if_neg h7,
        if_neg hnw, if_neg (by simp [hdig]), if_neg (by simp [halpha])]
    simp [add_token, Lexeme.kind, Lexeme.chars]

/-! ### Splitting the remaining text along a lexeme -/

theorem append_split {a F cs T' : List Char}
    (h : a ++ F = cs ++ T') (hlen : cs.length ≤ a.length) :
    a = cs ++ a.drop cs.length ∧ a.drop cs.length ++ F = T' := by
  constructor
  · have h1 := congrArg (List.take cs.length) h
    rw [List.take_append_eq_append_take] at h1
    rw [List.take_append_eq_append_take] at h1
    simp [Nat.sub_eq_zero_of_le hlen] at h1
    conv_lhs => rw [← List.take_append_drop cs.length a]
    rw [h1]
  · have h2 := congrArg (List.drop cs.length) h
    rw [List.drop_append_eq_append_drop] at h2
    rw [List.drop_append_eq_append_drop] at h2
    simp [Nat.sub_eq_zero_of_le hlen] at h2
    exact h2

theorem suffix_getLast {l : List Char} {n : Nat} (h : l.drop n ≠ []) :
    (l.drop n).getLast? = l.getLast? := by
  conv_rhs => rw [← List.take_append_drop n l]
  rw [List.getLast?_append_of_ne_nil _ h]

theorem mem_of_getLast?_char {l : List Char} {c : Char} (h : l.getLast? = some c) : c ∈ l := by
  cases hl : l with
  | nil => rw [hl] at h; simp at h
  | cons a as =>
    rw [hl] at h
    have := List.getLast?_eq_getLast (a :: as) (by simp)
    rw [this] at h
    simp at h
    rw [← h]
    exact List.getLast_mem _

/-- Whitespace characters may directly follow any lexeme. -/
theorem delim_ws (l : Lexeme) (c : Char) (h : c = ' ' ∨ c = '\n') : l.delim c := by
  cases l <;> (rcases h with h | h <;> (subst h; simp [Lexeme.delim]))

/-- A rendering by well-formed lexemes is empty only when there are no
lexemes. -/
theorem renderItems_eq_nil {items : List (Lexeme × List Char)}
    (hwf : ∀ p ∈ items, p.1.WF ∧ WS p.2)
    (h : renderItems items = []) : items = [] := by
  cases items with
  | nil => rfl
  | cons p rest =>
    obtain ⟨l, g⟩ := p
    simp only [renderItems, List.append_eq_nil] at h
    exact absurd h.1 (Lexeme.chars_ne_nil (hwf (l, g) (by simp)).1)

/-- Master lemma: scanning a state that still has to read a whitespace
gap followed by separated, well-formed lexemes appends exactly the
lexeme kinds to the token list, whatever the whitespace looks like. -/
theorem scanRender (fuel : Nat) :
    ∀ (g : List Char) (items : List (Lexeme × List Char)) (s : LexState),
    WS g →
    (∀ p ∈ items, p.1.WF ∧ WS p.2) →
    Separated items →
    ScanInv s (g ++ renderItems items) →
    2 * (g ++ renderItems items).length + s.rest.length + 1 ≤ fuel →
    (scan_tokens fuel s).tokens = s.tokens ++ items.map (fun p => p.1.kind) := by
  induction fuel with
  | zero =>
    intro g items s _ _ _ _ hb
    omega
  | succ f ih =>
    intro g items s hg hwf hsep hinv hb
    obtain ⟨hT, hnl, hlast, hlwf, hemp⟩ := hinv
    cases hcase : s.line.drop s.offset with
    | nil =>
      rw [hcase] at hT
      simp only [List.nil_append] at hT
      by_cases hline : s.line = []
      · -- end of input reached: nothing remains
        have hrest := hemp hline
        rw [hrest] at hT
        simp at hT
        have hitems : items = [] := renderItems_eq_nil hwf (by
          rcases hT with ⟨_, h2⟩; exact h2)
        rw [scan_tokens_stop _ _ hline, hitems]
        simp
      · cases hrest : s.rest with
        | nil =>
          -- last line just ran out: nothing remains either
          rw [hrest] at hT
          simp at hT
          have hitems : items = [] := renderItems_eq_nil hwf (by
            rcases hT with ⟨_, h2⟩; exact h2)
          rw [scan_tokens_boundary_step f s hcase hline, hrest]
          rw [scan_tokens_stop _ _ (by simp [readLine])]
          rw [hitems]
          simp
        | cons l' ls' =>
          -- cross into the next line
          rw [scan_tokens_boundary_step f s hcase hline, hrest]
          have hlwf' : LinesWF (l' :: ls') := by rw [hrest] at hlwf; exact hlwf
          obtain ⟨hl'ne, hl'nl, hl'last, hls'⟩ := hlwf'
          have := ih g items
            { s with start := s.offset, rest := ls', line := l',
                     curChar := some '\n', offset := 0 }
            hg hwf hsep
            ⟨by simpa using (by rw [hrest] at hT; simpa using hT),
             by simpa using hl'nl,
             by simpa using hl'last,
             by simpa using hls',
             by simp; intro h; exact absurd h hl'ne⟩
            (by rw [hrest] at hb; simp at hb ⊢; omega)
          simp only [readLine]
          simpa using this
    | cons c r =>
      -- a real character is under the cursor
      have hlinne : s.line ≠ [] := by
        intro hl
        rw [hl] at hcase
        simp at hcase
      cases g with
      | cons w g' =>
        -- it is a whitespace character of the leading gap
        have hw : w = ' ' ∨ w = '\n' := hg w (by simp)
        rw [hcase] at hT
        have hcw : c = w ∧ r ++ s.rest.flatten = g' ++ renderItems items := by
          constructor
          · have := congrArg List.head? hT
            simpa using this
          · have := congrArg List.tail hT
            simpa using this
        rw [scan_tokens_ws_step f s c r hcase (hcw.1 ▸ hw)]
        have hdrop1 : s.line.drop (s.offset + 1) = r := (drop_eq_cons_inv hcase).2.2
        have := ih g' items
          { s with start := s.offset, curChar := some c, offset := s.offset + 1 }
          (fun x hx => hg x (by simp [hx])) hwf hsep
          ⟨by simpa [hdrop1] using hcw.2,
           by simpa using hnl,
           by simpa using hlast,
           by simpa using hlwf,
           by simpa using hemp⟩
          (by simp at hb ⊢; omega)
        simpa using this
      | nil =>
        simp only [List.nil_append] at hT
        cases items with
        | nil =>
          rw [hcase] at hT
          simp [renderItems] at hT
        | cons p items' =>
          obtain ⟨l, gap⟩ := p
          have hpwf := hwf (l, gap) (by simp)
          have hchne : l.chars ≠ [] := Lexeme.chars_ne_nil hpwf.1
          have hnlch : '\n' ∉ l.chars := Lexeme.nl_not_mem_chars hpwf.1
          simp only [renderItems] at hT
          rw [hcase] at hT
          -- the whole lexeme lies inside the current line
          have hlen : l.chars.length ≤ (c :: r).length := by
            by_contra hcon
            push_neg at hcon
            have hc2 : r.length + 1 < l.chars.length := by
              simpa using hcon
            -- the line would end inside the lexeme, so it would end in a
            -- newline belonging to the lexeme: impossible
            have hFne : s.rest.flatten ≠ [] := by
              intro hF
              rw [hF] at hT
              simp at hT
              have hlen2 : (c :: r).length = (l.chars ++ (gap ++ renderItems items')).length := by
                rw [hT]
              simp at hlen2
              omega
            have hrestne : s.rest ≠ [] := by
              intro hr
              rw [hr] at hFne
              simp at hFne
            have hlastnl : (c :: r).getLast? = some '\n' := by
              rw [← hcase]
              rw [suffix_getLast (by rw [hcase]; simp)]
              exact hlast hrestne
            have hnl_mem : '\n' ∈ (c :: r) := mem_of_getLast?_char hlastnl
            -- c :: r is a proper prefix of l.chars
            have hpref : c :: r = l.chars.take (r.length + 1) := by
              have h1 := congrArg (List.take (r.length + 1)) hT
              rw [List.take_append_eq_append_take] at h1
              rw [List.take_append_eq_append_take] at h1
              rw [Nat.sub_eq_zero_of_le (le_of_lt hc2)] at h1
              simpa using h1
            have : '\n' ∈ l.chars := by
              rw [hpref] at hnl_mem
              exact List.mem_of_mem_take hnl_mem
            exact hnlch this
          obtain ⟨hsplit, hT'⟩ := append_split hT hlen
          have hdropL : s.line.drop s.offset = l.chars ++ (c :: r).drop l.chars.length := by
            rw [hcase]
            exact hsplit
          set rtail := (c :: r).drop l.chars.length with hrt
          -- the character following the lexeme is tolerated
          have hdelim : l.delim (rtail.headD '\n') := by
            cases hrtc : rtail with
            | nil =>
              exact delim_ws l '\n' (Or.inr rfl)
            | cons c' r' =>
              simp only [hrtc, List.headD_cons]
              rw [hrtc] at hT'
              cases hgap : gap with
              | cons w ws =>
                rw [hgap] at hT'
                have hcw2 : c' = w := by
                  have := congrArg List.head? hT'
                  simpa using this
                subst hcw2
                exact delim_ws l c' (hpwf.2 c' (by rw [hgap]; simp))
              | nil =>
                rw [hgap] at hT'
                simp at hT'
                cases items'13 : items' with
                | nil =>
                  rw [items'13] at hT'
                  simp [renderItems] at hT'
                | cons q items'' =>
                  obtain ⟨l2, gap2⟩ := q
                  rw [items'13] at hT'
                  simp only [renderItems] at hT'
                  have hq := hwf (l2, gap2) (by rw [items'13]; simp)
                  have hchne2 : l2.chars ≠ [] := Lexeme.chars_ne_nil hq.1
                  have hc' : c' = l2.chars.headD '\n' := by
                    cases hch2 : l2.chars with
                    | nil => exact absurd hch2 hchne2
                    | cons z zs =>
                      rw [hch2] at hT'
                      simp at hT'
                      simp [hT'.1]
                  have hsepHead := hsep.1
                  rw [items'13] at hsepHead
                  simp only [followCharOf, hgap, List.head?_cons, Option.map_some] at hsepHead
                  rw [hc']
                  exact hsepHead
          -- consume the lexeme
          have hnem : ¬ s.line.isEmpty = true := by
            cases hl : s.line with
            | nil => exact absurd hl hlinne
            | cons a as => simp
          have hfuel2 : l.chars.length < f := by
            have hb2 := hb
            simp only [renderItems] at hb2
            have hlc1 : 1 ≤ l.chars.length := by
              cases hch : l.chars with
              | nil => exact absurd hch hchne
              | cons z zs => simp
            simp at hb2
            omega
          obtain ⟨y, hy⟩ := scan_token_lexeme_spec f { s with start := s.offset } l rtail
            hpwf.1 (by simpa using hdropL) hdelim rfl hfuel2
          simp only [scan_tokens, at_end]
          rw [if_neg (by simp [hnem])]
          rw [hy]
          have hrec := ih gap items'
            { s with start := s.offset, offset := s.offset + l.chars.length,
                     curChar := some y, tokens := s.tokens ++ [l.kind] }
            hpwf.2 (fun x hx => hwf x (by simp [hx])) hsep.2
            ⟨by
              simp only
              rw [drop_append_of_drop hdropL]
              exact hT',
             by simpa using hnl,
             by simpa using hlast,
             by simpa using hlwf,
             by simpa using hemp⟩
            (by
              have hlc1 : 1 ≤ l.chars.length := by
                cases hch : l.chars with
                | nil => exact absurd hch hchne
                | cons z zs => simp
              have hb2 := hb
              simp only [renderItems] at hb2
              simp at hb2 ⊢
              omega)
          rw [hrec]
          simp

theorem splitLines_length_le (x : List Char) : (splitLines x).length ≤ x.length := by
  induction x with
  | nil => simp [splitLines]
  | cons c cs ih =>
    simp only [splitLines]
    split
    · simp
      omega
    · cases hl : splitLines cs with
      | nil => simp
      | cons l ls =>
        rw [hl] at ih
        simp at ih ⊢
        omega

/-- Tokenizing a whitespace-separated rendering yields exactly the
lexeme kinds, for any whitespace and any sufficient fuel. -/
theorem tokenize_render (g0 : List Char) (items : List (Lexeme × List Char)) (fuel : Nat)
    (hg0 : WS g0)
    (hwf : ∀ p ∈ items, p.1.WF ∧ WS p.2)
    (hsep : Separated items)
    (hfuel : 3 * (render g0 items).length + 2 ≤ fuel) :
    tokenize fuel (render g0 items) = items.map (fun p => p.1.kind) := by
  unfold tokenize
  have hinv := scanInv_init (render g0 items)
  have hrest : (initLexer (splitLines (render g0 items))).rest.length
      ≤ (render g0 items).length := by
    have h1 := splitLines_length_le (render g0 items)
    cases hl : splitLines (render g0 items) with
    | nil => simp [initLexer, readLine]
    | cons l ls =>
      rw [hl] at h1
      simp [initLexer, readLine]
      simp at h1
      omega
  have := scanRender fuel g0 items (initLexer (splitLines (render g0 items)))
    hg0 hwf hsep (by simpa [render] using hinv)
    (by
      have : (g0 ++ renderItems items).length = (render g0 items).length := rfl
      omega)
  rw [this]
  simp [initLexer]

instance decWS (g : List Char) : Decidable (WS g) := by
  unfold WS; infer_instance

instance Lexeme.decWF : ∀ l : Lexeme, Decidable l.WF
  | punct _ => by unfold Lexeme.WF; infer_instance
  | str _ => by unfold Lexeme.WF; infer_instance
  | num _ => by unfold Lexeme.WF; infer_instance
  | numFrac _ _ => by unfold Lexeme.WF; infer_instance
  | alpha _ => by unfold Lexeme.WF; infer_instance
  | other _ => by unfold Lexeme.WF; infer_instance

instance Lexeme.decDelim : ∀ (l : Lexeme) (c : Char), Decidable (l.delim c)
  | punct _, _ => by unfold Lexeme.delim; infer_instance
  | str _, _ => by unfold Lexeme.delim; infer_instance
  | num _, _ => by unfold Lexeme.delim; infer_instance
  | numFrac _ _, _ => by unfold Lexeme.delim; infer_instance
  | alpha _, _ => by unfold Lexeme.delim; infer_instance
  | other _, _ => by unfold Lexeme.delim; infer_instance

instance decSeparated : (its : List (Lexeme × List Char)) → Decidable (Separated its)
  | [] => .isTrue trivial
  | (l, g) :: rest =>
    have : Decidable (Separated rest) := decSeparated rest
    by unfold Separated; infer_instance

/-- C9 (as amended): whitespace-only variation between tokens never
changes the validation result.  Two inputs made of the same sequence
of well-formed lexemes, each with arbitrary spaces and newlines
around them — in particular, an input and the same input with extra
whitespace inserted between tokens — validate identically, provided
adjacent lexemes that would merge stay separated. -/
theorem claim_C9_whitespace_insertion
    (fuel fuel' : Nat) (g0 g0' : List Char)
    (items items' : List (Lexeme × List Char))
    (hsame : items.map Prod.fst = items'.map Prod.fst)
    (hg0 : WS g0) (hg0' : WS g0')
    (hwf : ∀ p ∈ items, p.1.WF ∧ WS p.2)
    (hwf' : ∀ p ∈ items', p.1.WF ∧ WS p.2)
    (hsep : Separated items) (hsep' : Separated items')
    (hfuel : 3 * (render g0 items).length + 2 ≤ fuel)
    (hfuel' : 3 * (render g0' items').length + 2 ≤ fuel') :
    parse fuel (render g0 items) = parse fuel' (render g0' items') := by
  unfold parse
  rw [tokenize_render g0 items fuel hg0 hwf hsep hfuel,
      tokenize_render g0' items' fuel' hg0' hwf' hsep' hfuel']
  have hmaps : items.map (fun p => p.1.kind) = items'.map (fun p => p.1.kind) := by
    have h1 : items.map (fun p => p.1.kind) = (items.map Prod.fst).map Lexeme.kind := by
      rw [List.map_map]; rfl
    have h2 : items'.map (fun p => p.1.kind) = (items'.map Prod.fst).map Lexeme.kind := by
      rw [List.map_map]; rfl
    rw [h1, h2, hsame]
  rw [hmaps]

/-- C9 counterexample: *removing* whitespace between tokens can change
the result.  `{"a":1 2}` holds two Number tokens and is rejected;
deleting the separating space merges them into the single Number of
`{"a":12}`, which is accepted. -/
theorem claim_C9_counterexample :
    parse 100 (String.toList "\x7b\"a\":1 2\x7d") = false
    ∧ parse 100 (String.toList "\x7b\"a\":12\x7d") = true := by
  constructor
  · have h : tokenize 100 (String.toList "\x7b\"a\":1 2\x7d")
        = [.LeftBrace, .String, .Colon, .Number, .Number, .RightBrace] := by decide
    unfold parse
    rw [h]
    simp [parseTokens, object, objectLoop, value, array, arrayLoop, match_token]
  · have h : tokenize 100 (String.toList "\x7b\"a\":12\x7d")
        = [.LeftBrace, .String, .Colon, .Number, .RightBrace] := by decide
    unfold parse
    rw [h]
    simp [parseTokens, object, objectLoop, value, array, arrayLoop, match_token]

/-- Witness for C9: the document `{"a":1}` written without whitespace
and with a space after `{`, a space after `:` and a newline after `1`
validates identically. -/
theorem claim_C9_whitespace_insertion_witness :
    parse 100 (render [] [(.punct '{', []), (.str ['a'], []), (.punct ':', []),
      (.num ['1'], []), (.punct '}', [])])
    = parse 100 (render [] [(.punct '{', [' ']), (.str ['a'], []), (.punct ':', [' ']),
      (.num ['1'], ['\n']), (.punct '}', [])]) :=
  claim_C9_whitespace_insertion 100 100 [] []
    [(.punct '{', []), (.str ['a'], []), (.punct ':', []), (.num ['1'], []), (.punct '}', [])]
    [(.punct '{', [' ']), (.str ['a'], []), (.punct ':', [' ']), (.num ['1'], ['\n']), (.punct '}', [])]
    (by decide) (by decide) (by decide) (by decide) (by decide) (by decide) (by decide)
    (by decide) (by decide)
